import Mathlib

/-!
Verification of the dbglab-bctools repository (`src/py/itam_costim_bc_regex.py`
and `src/py/merge_bc_dfs.py`) against its natural-language specification.

The Python code is shallowly embedded: dataframes become explicit table
structures, the pandas outer merge becomes `merge_dataframes`, the pairwise
tree reduction of `reduce_dataframes` becomes a well-founded recursion over
the list of tables, the line-decoding main loop of the barcode extractor
becomes a fold over a list of parsed input lines, and the fuzzy regex is
embedded as an inductive bounded-edit matching relation.
-/

set_option maxHeartbeats 1600000

namespace BcTools

/- ================================================================
   merge_bc_dfs.py, `reduce_dataframes` (lines 37-87).

   One iteration of the `while True` loop merges the adjacent pairs
   `zip(dfs[::2], dfs[1::2])` and appends the carried-forward odd
   leftover (`odd_dfs`) at the end of the round's output.  `roundStep`
   captures exactly that: pair adjacent tables, merge each pair, carry
   an unpaired final table through unchanged.
   ================================================================ -/

def roundStep (merge : α → α → α) : List α → List α
  | [] => []
  | [x] => [x]
  | a :: b :: rest => merge a b :: roundStep merge rest

theorem roundStep_length (merge : α → α → α) :
    ∀ l : List α, (roundStep merge l).length = (l.length + 1) / 2
  | [] => by simp [roundStep]
  | [_] => by simp [roundStep]
  | _ :: _ :: rest => by
      simp only [roundStep, List.length_cons, roundStep_length merge rest]
      omega

theorem roundStep_ne_nil (merge : α → α → α) (l : List α) (h : l ≠ []) :
    roundStep merge l ≠ [] := by
  intro hn
  have hl := roundStep_length merge l
  rw [hn] at hl
  simp only [List.length_nil] at hl
  cases l with
  | nil => exact h rfl
  | cons a t => simp only [List.length_cons] at hl; omega

theorem roundStep_length_lt (merge : α → α → α) (l : List α) (h2 : 2 ≤ l.length) :
    (roundStep merge l).length < l.length := by
  rw [roundStep_length]
  omega

/-- `reduce_dataframes` (merge_bc_dfs.py lines 37-87): repeatedly apply one
round of adjacent pairwise merging (with odd-leftover carry-forward) until a
single table remains, and return it.  The Python loop breaks exactly when
`len(merged_dfs) == 1`; on an empty list the source loop would never
terminate, but the CLI (`nargs='+'`) guarantees a non-empty list, so the
embedding requires `l ≠ []`. -/
def reduce_dataframes (merge : α → α → α) (l : List α) (h : l ≠ []) : α :=
  if h1 : (roundStep merge l).length = 1 then
    (roundStep merge l).head (by intro hn; rw [hn] at h1; simp at h1)
  else
    reduce_dataframes merge (roundStep merge l) (roundStep_ne_nil merge l h)
termination_by l.length
decreasing_by
  have hlen := roundStep_length merge l
  have hpos : 1 ≤ l.length := by
    cases l with
    | nil => exact absurd rfl h
    | cons a t => simp
  omega

/-- Total number of pairwise `merge_dataframes` invocations performed by
`reduce_dataframes` on `l`: each round performs `⌊n/2⌋` merges (one per
adjacent pair), and the recursion stops when one table is left.  The
`l = []` branch is unreachable from `reduce_dataframes` and exists only to
make the function total. -/
def numMerges (merge : α → α → α) (l : List α) : ℕ :=
  if (roundStep merge l).length = 1 then l.length / 2
  else if l.isEmpty then 0
  else l.length / 2 + numMerges merge (roundStep merge l)
termination_by l.length
decreasing_by
  rename_i h1 h0
  have hlen := roundStep_length merge l
  have hpos : 1 ≤ l.length := by
    cases l with
    | nil => simp at h0
    | cons a t => simp
  omega

theorem numMerges_eq (merge : α → α → α) (l : List α) (h : l ≠ []) :
    numMerges merge l = l.length - 1 := by
  rw [numMerges]
  have hlen := roundStep_length merge l
  have hpos : 1 ≤ l.length := by
    cases l with
    | nil => exact absurd rfl h
    | cons a t => simp
  have hne : l.isEmpty = false := by
    cases l with
    | nil => exact absurd rfl h
    | cons a t => rfl
  split
  · omega
  · rename_i h1
    rw [hne]
    simp only [Bool.false_eq_true, if_false]
    have IH := numMerges_eq merge (roundStep merge l) (roundStep_ne_nil merge l h)
    rw [IH, hlen]
    omega
termination_by l.length
decreasing_by
  have hlen := roundStep_length merge l
  have hpos : 1 ≤ l.length := by
    cases l with
    | nil => exact absurd rfl h
    | cons a t => simp
  omega

/- ================================================================
   merge_bc_dfs.py, `merge_dataframes` (lines 10-35) and the table model.

   A loaded sample table / merged table is modelled by its content:
   `cols` is the set of per-sample count columns (the columns other than
   the five shared `HEADER_COLS` key columns), `keys` is the set of
   five-field key tuples present as rows, and `val k s` is the entry of
   count column `s` at key row `k` (`none` models a pandas NaN / a cell
   outside the table).  Row order is quotiented away: the claims about
   the merge are all stated "up to row order".
   ================================================================ -/

@[ext]
structure MTable (K S : Type) where
  cols : Finset S
  keys : Finset K
  val : K → S → Option ℤ

variable {K S : Type}

/-- Well-formedness of a table as produced by `load_csv_file`
(merge_bc_dfs.py lines 89-107) and preserved by every merge: a cell holds
a value only at a present key row and a present count column. -/
def MTable.Wf (t : MTable K S) : Prop :=
  ∀ k s, (t.val k s).isSome = true → k ∈ t.keys ∧ s ∈ t.cols

/-- `merge_dataframes` (merge_bc_dfs.py line 29):
`pd.merge(df1, df2, on=HEADER_COLS, how='outer')`.  The result's key rows
are the union of both inputs' key rows, its count columns are the union of
both inputs' count columns, and a cell comes from whichever input owns the
column (for well-formed inputs with disjoint count columns at most one
side is ever populated, so the `orElse` is exactly the outer join). -/
def merge_dataframes [DecidableEq K] [DecidableEq S]
    (t1 t2 : MTable K S) : MTable K S where
  cols := t1.cols ∪ t2.cols
  keys := t1.keys ∪ t2.keys
  val := fun k s => (t1.val k s).orElse (fun _ => t2.val k s)

/-- The empty table: unit of `merge_dataframes`. -/
def emptyMT : MTable K S where
  cols := ∅
  keys := ∅
  val := fun _ _ => none

/-- Order-independent denotation of merging a whole list of tables. -/
def denoteMT [DecidableEq K] [DecidableEq S] (l : List (MTable K S)) : MTable K S :=
  l.foldr merge_dataframes emptyMT

section MergeAlgebra

variable [DecidableEq K] [DecidableEq S]

theorem merge_empty_right (t : MTable K S) : merge_dataframes t emptyMT = t := by
  refine MTable.ext ?_ ?_ ?_
  · simp [merge_dataframes, emptyMT]
  · simp [merge_dataframes, emptyMT]
  · funext k s
    show ((t.val k s).orElse fun _ => none) = t.val k s
    cases t.val k s <;> rfl

theorem merge_empty_left (t : MTable K S) : merge_dataframes emptyMT t = t := by
  refine MTable.ext ?_ ?_ ?_
  · simp [merge_dataframes, emptyMT]
  · simp [merge_dataframes, emptyMT]
  · funext k s
    rfl

theorem merge_assoc (a b c : MTable K S) :
    merge_dataframes (merge_dataframes a b) c =
      merge_dataframes a (merge_dataframes b c) := by
  refine MTable.ext ?_ ?_ ?_
  · simp [merge_dataframes, Finset.union_assoc]
  · simp [merge_dataframes, Finset.union_assoc]
  · funext k s
    show ((a.val k s).orElse (fun _ => b.val k s)).orElse (fun _ => c.val k s) =
      (a.val k s).orElse (fun _ => (b.val k s).orElse fun _ => c.val k s)
    cases a.val k s <;> rfl

theorem merge_wf {t1 t2 : MTable K S} (h1 : t1.Wf) (h2 : t2.Wf) :
    (merge_dataframes t1 t2).Wf := by
  intro k s hs
  show k ∈ t1.keys ∪ t2.keys ∧ s ∈ t1.cols ∪ t2.cols
  rcases hv : t1.val k s with _ | v
  · rw [show (merge_dataframes t1 t2).val k s = t2.val k s by
      simp [merge_dataframes, hv, Option.orElse]] at hs
    have := h2 k s hs
    simp [Finset.mem_union, this.1, this.2]
  · have := h1 k s (by simp [hv])
    simp [Finset.mem_union, this.1, this.2]

theorem denote_cons (t : MTable K S) (l : List (MTable K S)) :
    denoteMT (t :: l) = merge_dataframes t (denoteMT l) := rfl

theorem denote_append (l1 l2 : List (MTable K S)) :
    denoteMT (l1 ++ l2) = merge_dataframes (denoteMT l1) (denoteMT l2) := by
  induction l1 with
  | nil => simp [denoteMT, merge_empty_left]
  | cons a t ih =>
      simp only [List.cons_append, denote_cons, ih, merge_assoc]

theorem denote_roundStep :
    ∀ l : List (MTable K S), denoteMT (roundStep merge_dataframes l) = denoteMT l
  | [] => rfl
  | [_] => rfl
  | a :: b :: rest => by
      show denoteMT (merge_dataframes a b :: roundStep merge_dataframes rest) = _
      rw [denote_cons, denote_roundStep rest, denote_cons, denote_cons, merge_assoc]

theorem reduce_eq_denote (l : List (MTable K S)) (h : l ≠ []) :
    reduce_dataframes merge_dataframes l h = denoteMT l := by
  rw [reduce_dataframes]
  split
  · rename_i h1
    rcases List.length_eq_one.mp h1 with ⟨x, hx⟩
    have : denoteMT (roundStep merge_dataframes l) = denoteMT l := denote_roundStep l
    rw [hx] at this
    simp only [hx, List.head_cons]
    rw [← this, denote_cons]
    simp [denoteMT, merge_empty_right]
  · rename_i h1
    rw [reduce_eq_denote (roundStep merge_dataframes l) (roundStep_ne_nil merge_dataframes l h),
      denote_roundStep l]
termination_by l.length
decreasing_by
  have hlen := roundStep_length merge_dataframes l
  have hpos : 1 ≤ l.length := by
    cases l with
    | nil => exact absurd rfl h
    | cons a t => simp
  omega

theorem mem_cols_denote {s : S} :
    ∀ l : List (MTable K S), s ∈ (denoteMT l).cols ↔ ∃ t ∈ l, s ∈ t.cols
  | [] => by simp [denoteMT, emptyMT]
  | a :: rest => by
      rw [denote_cons]
      show s ∈ a.cols ∪ (denoteMT rest).cols ↔ _
      simp [Finset.mem_union, mem_cols_denote rest]

theorem mem_keys_denote {k : K} :
    ∀ l : List (MTable K S), k ∈ (denoteMT l).keys ↔ ∃ t ∈ l, k ∈ t.keys
  | [] => by simp [denoteMT, emptyMT]
  | a :: rest => by
      rw [denote_cons]
      show k ∈ a.keys ∪ (denoteMT rest).keys ↔ _
      simp [Finset.mem_union, mem_keys_denote rest]

theorem denote_val_of_not_mem_cols {s : S} {k : K} :
    ∀ l : List (MTable K S), (∀ t ∈ l, t.Wf) → (∀ t ∈ l, s ∉ t.cols) →
      (denoteMT l).val k s = none
  | [], _, _ => rfl
  | a :: rest, hw, hc => by
      rw [denote_cons]
      have ha : a.val k s = none := by
        rcases hv : a.val k s with _ | v
        · rfl
        · exact absurd ((hw a (by simp) k s (by simp [hv])).2) (hc a (by simp))
      show (a.val k s).orElse (fun _ => (denoteMT rest).val k s) = none
      rw [ha]
      exact denote_val_of_not_mem_cols rest (fun t ht => hw t (by simp [ht]))
        (fun t ht => hc t (by simp [ht]))

/-- Owner lemma: with pairwise-disjoint count columns, the merged cell in
column `s` is exactly the cell of the unique input table owning `s`. -/
theorem denote_val_owner {s : S} {k : K} {t : MTable K S} :
    ∀ l : List (MTable K S),
      List.Pairwise (fun t1 t2 => Disjoint t1.cols t2.cols) l →
      (∀ u ∈ l, u.Wf) → t ∈ l → s ∈ t.cols →
      (denoteMT l).val k s = t.val k s
  | [], _, _, ht, _ => absurd ht (by simp)
  | a :: rest, hp, hw, ht, hs => by
      rw [denote_cons]
      rcases List.mem_cons.mp ht with rfl | htr
      · show (t.val k s).orElse (fun _ => (denoteMT rest).val k s) = t.val k s
        rcases hv : t.val k s with _ | v
        · have : (denoteMT rest).val k s = none := by
            apply denote_val_of_not_mem_cols rest (fun u hu => hw u (by simp [hu]))
            intro u hu hsu
            exact Finset.disjoint_left.mp ((List.pairwise_cons.mp hp).1 u hu) hs hsu
          simpa [Option.orElse]
        · rfl
      · have ha : a.val k s = none := by
          rcases hv : a.val k s with _ | v
          · rfl
          · have hsa := (hw a (by simp) k s (by simp [hv])).2
            exact absurd hs
              (Finset.disjoint_left.mp ((List.pairwise_cons.mp hp).1 t htr) hsa)
        show (a.val k s).orElse (fun _ => (denoteMT rest).val k s) = t.val k s
        rw [ha]
        exact denote_val_owner rest (List.pairwise_cons.mp hp).2
          (fun u hu => hw u (by simp [hu])) htr hs

/-- Permutation invariance of the merged content under the claim's
preconditions (distinct sample columns, well-formed inputs). -/
theorem denote_perm {l l' : List (MTable K S)}
    (hperm : l.Perm l')
    (hp : List.Pairwise (fun t1 t2 => Disjoint t1.cols t2.cols) l)
    (hw : ∀ u ∈ l, u.Wf) :
    denoteMT l = denoteMT l' := by
  have hp' : List.Pairwise (fun t1 t2 => Disjoint t1.cols t2.cols) l' :=
    (hperm.pairwise_iff (fun h => h.symm)).mp hp
  have hw' : ∀ u ∈ l', u.Wf := fun u hu => hw u (hperm.mem_iff.mpr hu)
  refine MTable.ext ?_ ?_ ?_
  · apply Finset.ext
    intro s
    rw [mem_cols_denote l, mem_cols_denote l']
    constructor
    · rintro ⟨t, ht, hs⟩; exact ⟨t, hperm.mem_iff.mp ht, hs⟩
    · rintro ⟨t, ht, hs⟩; exact ⟨t, hperm.mem_iff.mpr ht, hs⟩
  · apply Finset.ext
    intro k
    rw [mem_keys_denote l, mem_keys_denote l']
    constructor
    · rintro ⟨t, ht, hs⟩; exact ⟨t, hperm.mem_iff.mp ht, hs⟩
    · rintro ⟨t, ht, hs⟩; exact ⟨t, hperm.mem_iff.mpr ht, hs⟩
  · funext k s
    by_cases hex : ∃ t ∈ l, s ∈ t.cols
    · rcases hex with ⟨t, ht, hs⟩
      rw [denote_val_owner l hp hw ht hs,
        denote_val_owner l' hp' hw' (hperm.mem_iff.mp ht) hs]
    · push_neg at hex
      rw [denote_val_of_not_mem_cols l hw hex,
        denote_val_of_not_mem_cols l' hw' (fun t ht => hex t (hperm.mem_iff.mpr ht))]

end MergeAlgebra

/- A pairing sequence: an arbitrary binary merge tree over some ordering of
the input tables.  `reduce_dataframes`'s adjacent pairing with leftover
carry-forward is one such tree. -/

inductive MergeTree (K S : Type) where
  | leaf (t : MTable K S)
  | node (lt rt : MergeTree K S)

def MergeTree.eval [DecidableEq K] [DecidableEq S] : MergeTree K S → MTable K S
  | .leaf t => t
  | .node lt rt => merge_dataframes lt.eval rt.eval

def MergeTree.leaves : MergeTree K S → List (MTable K S)
  | .leaf t => [t]
  | .node lt rt => lt.leaves ++ rt.leaves

theorem eval_eq_denote [DecidableEq K] [DecidableEq S] :
    ∀ tr : MergeTree K S, tr.eval = denoteMT tr.leaves
  | .leaf t => by
      show t = denoteMT [t]
      rw [denote_cons]
      simp [denoteMT, merge_empty_right]
  | .node lt rt => by
      show merge_dataframes lt.eval rt.eval = denoteMT (lt.leaves ++ rt.leaves)
      rw [denote_append, eval_eq_denote lt, eval_eq_denote rt]

/- ================================================================
   merge_bc_dfs.py, `main` (lines 110-147): the post-merge finalizer on
   the content view (used for the whole-merge-path model), and a
   row-list view of the same finalizer for the ordering claim.
   ================================================================ -/

structure FinalMT (K S : Type) where
  cols : Finset S
  keys : Finset K
  cells : K → S → ℤ
  total : K → ℤ
  n_samples : K → ℕ

/-- The finalizer steps of `main` (merge_bc_dfs.py lines 130-143) on the
content view of the merged table: `fillna(0)` + `astype(int)` becomes
`Option.getD 0`, `total` is the row-wise sum over the count columns and
`n_samples` the row-wise number of strictly positive count columns. -/
def finalizeM [DecidableEq S] (t : MTable K S) : FinalMT K S where
  cols := t.cols
  keys := t.keys
  cells := fun k s => (t.val k s).getD 0
  total := fun k => ∑ s ∈ t.cols, (t.val k s).getD 0
  n_samples := fun k => (t.cols.filter (fun s => 0 < (t.val k s).getD 0)).card

/-- `main(file_names, min_merge_count)` of merge_bc_dfs.py (lines 110-147),
starting from the already-loaded per-sample tables: reduce them all with
the pairwise tree merge and finalize.  The `min_merge_count` argument is
bound but — exactly as in the source — never read. -/
def main_merge [DecidableEq K] [DecidableEq S]
    (dfs : List (MTable K S)) (min_merge_count : ℤ) (h : dfs ≠ []) : FinalMT K S :=
  finalizeM (reduce_dataframes merge_dataframes dfs h)

/- Row-list view of the final merged table, for the sorting claim:
a row has the five-field key and one optional cell per sample column. -/

structure FRow (K S : Type) where
  key : K
  cells : S → Option ℤ

structure FinRow (K S : Type) where
  key : K
  cells : S → ℤ
  total : ℤ
  n_samples : ℕ

/-- Sort relation of `sort_values(by='total', ascending=False)`. -/
def totGe (a b : FinRow K S) : Prop := b.total ≤ a.total

instance : DecidableRel (totGe (K := K) (S := S)) :=
  fun a b => inferInstanceAs (Decidable (b.total ≤ a.total))

instance : IsTotal (FinRow K S) totGe := ⟨fun a b => le_total b.total a.total⟩

instance : IsTrans (FinRow K S) totGe := ⟨fun _ _ _ hab hbc => le_trans hbc hab⟩

/-- Fill one merged row (merge_bc_dfs.py lines 133-143): NaN count cells
become 0, `total` is the row-wise sum over the sample columns and
`n_samples` the row-wise count of strictly positive sample columns. -/
def fillRow (samples : List S) (r : FRow K S) : FinRow K S where
  key := r.key
  cells := fun s => (r.cells s).getD 0
  total := (samples.map (fun s => (r.cells s).getD 0)).sum
  n_samples := (samples.filter (fun s => decide (0 < (r.cells s).getD 0))).length

/-- The finalizer of merge_bc_dfs.py `main` (lines 130-145) on the row-list
view: fill/derive every row, then sort by `total` descending (the source
sorts twice with the same key; ties are in unspecified order either way). -/
def finalize_merged (samples : List S) (rows : List (FRow K S)) : List (FinRow K S) :=
  List.insertionSort totGe (rows.map (fillRow samples))

/- ================================================================
   Claim theorems for the merge engine.
   ================================================================ -/

/-- C2: for every non-empty list of N tables, `reduce_dataframes`
terminates (it is a total function of the embedding, with termination
proved on the table count), performs exactly N−1 pairwise merges
(`numMerges` counts the `merge_dataframes` invocations round by round),
and each round strictly decreases the number of remaining tables while
more than one remains. -/
theorem merge_engine_work_and_termination (merge : α → α → α)
    (l : List α) (h : l ≠ []) :
    numMerges merge l = l.length - 1 ∧
      (2 ≤ l.length → (roundStep merge l).length < l.length) :=
  ⟨numMerges_eq merge l h, fun h2 => roundStep_length_lt merge l h2⟩

theorem merge_engine_work_and_termination_witness :
    numMerges (fun a b : ℕ => a + b) [1, 2, 3] = [1, 2, 3].length - 1 ∧
      (2 ≤ ([1, 2, 3] : List ℕ).length →
        (roundStep (fun a b : ℕ => a + b) [1, 2, 3]).length <
          ([1, 2, 3] : List ℕ).length) :=
  merge_engine_work_and_termination (fun a b : ℕ => a + b) [1, 2, 3] (by simp)

/-- C4: for tables with unique keys (unique by construction in the content
model), pairwise-distinct sample columns and well-formed cells, every valid
pairing sequence — any binary merge tree over any reordering of the input
list, which includes the engine's adjacent pairing with leftover
carry-forward — produces the same merged table content as
`reduce_dataframes`. -/
theorem merge_order_independence [DecidableEq K] [DecidableEq S]
    (l : List (MTable K S)) (h : l ≠ []) (tr : MergeTree K S)
    (hp : List.Pairwise (fun t1 t2 => Disjoint t1.cols t2.cols) l)
    (hw : ∀ t ∈ l, t.Wf)
    (hperm : tr.leaves.Perm l) :
    tr.eval = reduce_dataframes merge_dataframes l h := by
  rw [reduce_eq_denote, eval_eq_denote]
  exact denote_perm hperm
    ((hperm.pairwise_iff (fun hd => hd.symm)).mpr hp)
    (fun u hu => hw u (hperm.mem_iff.mp hu))

theorem merge_order_independence_witness :
    (MergeTree.leaf (emptyMT : MTable ℕ ℕ)).eval =
      reduce_dataframes merge_dataframes [(emptyMT : MTable ℕ ℕ)] (by simp) :=
  merge_order_independence [(emptyMT : MTable ℕ ℕ)] (by simp)
    (MergeTree.leaf emptyMT)
    (by simp)
    (by
      intro t ht k s hs
      have h1 : t = emptyMT := by simpa using ht
      subst h1
      simp [emptyMT] at hs)
    (by simp [MergeTree.leaves])

/-- C5: merge conservation — for every input sample table `t` and its count
column `s`, the sum of column `s` over the final merged table (absent cells
counted as 0) equals the sum of the count column of `t` itself; nothing is
lost or duplicated because the joins are 1:1 on the deduplicated keys. -/
theorem merge_conservation [DecidableEq K] [DecidableEq S]
    (l : List (MTable K S)) (h : l ≠ []) (t : MTable K S) (s : S)
    (hp : List.Pairwise (fun t1 t2 => Disjoint t1.cols t2.cols) l)
    (hw : ∀ u ∈ l, u.Wf) (ht : t ∈ l) (hs : s ∈ t.cols) :
    ∑ k ∈ (reduce_dataframes merge_dataframes l h).keys,
        ((reduce_dataframes merge_dataframes l h).val k s).getD 0 =
      ∑ k ∈ t.keys, (t.val k s).getD 0 := by
  rw [reduce_eq_denote]
  have hsub : t.keys ⊆ (denoteMT l).keys :=
    fun k hk => (mem_keys_denote l).mpr ⟨t, ht, hk⟩
  have hval : ∀ k, (denoteMT l).val k s = t.val k s :=
    fun k => denote_val_owner l hp hw ht hs
  have hzero : ∀ k ∈ (denoteMT l).keys, k ∉ t.keys → (t.val k s).getD 0 = 0 := by
    intro k _ hk
    rcases hv : t.val k s with _ | v
    · rfl
    · exact absurd (hw t ht k s (by simp [hv])).1 hk
  calc ∑ k ∈ (denoteMT l).keys, ((denoteMT l).val k s).getD 0
      = ∑ k ∈ (denoteMT l).keys, (t.val k s).getD 0 :=
        Finset.sum_congr rfl (fun k _ => by rw [hval k])
    _ = ∑ k ∈ t.keys, (t.val k s).getD 0 :=
        (Finset.sum_subset hsub hzero).symm

/-- A one-row, one-column sample table used as concrete witness input. -/
def tEx5 : MTable ℕ ℕ where
  cols := {0}
  keys := {7}
  val := fun k s => if k = 7 ∧ s = 0 then some 5 else none

theorem merge_conservation_witness :
    ∑ k ∈ (reduce_dataframes merge_dataframes [tEx5] (by simp)).keys,
        ((reduce_dataframes merge_dataframes [tEx5] (by simp)).val k 0).getD 0 =
      ∑ k ∈ tEx5.keys, (tEx5.val k 0).getD 0 :=
  merge_conservation [tEx5] (by simp) tEx5 0
    (by simp)
    (by
      intro u hu k s hs
      have h1 : u = tEx5 := by simpa using hu
      subst h1
      by_cases hc : k = 7 ∧ s = 0
      · simp [tEx5, hc.1, hc.2]
      · simp [tEx5, hc] at hs)
    (by simp)
    (by simp [tEx5])

/-- C7: the minimum-merge-count threshold accepted by the merge CLI is
bound by `main` but never read anywhere on the merge path, so two runs on
the same loaded tables with any two threshold values produce identical
final output; no row is ever filtered by it. -/
theorem min_merge_count_noninterference [DecidableEq K] [DecidableEq S]
    (dfs : List (MTable K S)) (h : dfs ≠ []) (m1 m2 : ℤ) :
    main_merge dfs m1 h = main_merge dfs m2 h := rfl

theorem min_merge_count_noninterference_witness :
    main_merge [(emptyMT : MTable ℕ ℕ)] 0 (by simp) =
      main_merge [(emptyMT : MTable ℕ ℕ)] 5 (by simp) :=
  min_merge_count_noninterference [(emptyMT : MTable ℕ ℕ)] (by simp) 0 5

/-- C6: finalizer postcondition — in the finalized table every previously
unset sample cell is 0 (and every sample column is integer-valued, which
the `ℤ`-valued `cells` field expresses), each row's `total` is the row-wise
sum of its sample columns and its `n_samples` the row-wise count of
strictly positive sample columns, and the rows are sorted by `total`
descending (ties in unspecified order). -/
theorem finalizer_postcondition (samples : List S) (rows : List (FRow K S)) :
    List.Sorted totGe (finalize_merged samples rows) ∧
    ∀ r ∈ finalize_merged samples rows,
      r.total = (samples.map r.cells).sum ∧
      r.n_samples = (samples.filter (fun s => decide (0 < r.cells s))).length ∧
      ∃ r0 ∈ rows, r.key = r0.key ∧ ∀ s, r.cells s = (r0.cells s).getD 0 := by
  constructor
  · exact List.sorted_insertionSort totGe _
  · intro r hr
    have hr' : r ∈ rows.map (fillRow samples) :=
      (List.perm_insertionSort totGe _).mem_iff.mp hr
    rcases List.mem_map.mp hr' with ⟨r0, hr0, rfl⟩
    exact ⟨rfl, rfl, r0, hr0, rfl, fun _ => rfl⟩

def exSamples : List ℕ := [0]

def exFRows : List (FRow ℕ ℕ) := [⟨3, fun _ => some 4⟩]

theorem finalizer_postcondition_witness :
    List.Sorted totGe (finalize_merged exSamples exFRows) ∧
    ∀ r ∈ finalize_merged exSamples exFRows,
      r.total = (exSamples.map r.cells).sum ∧
      r.n_samples = (exSamples.filter (fun s => decide (0 < r.cells s))).length ∧
      ∃ r0 ∈ exFRows, r.key = r0.key ∧ ∀ s, r.cells s = (r0.cells s).getD 0 :=
  finalizer_postcondition exSamples exFRows

/- ================================================================
   itam_costim_bc_regex.py, `main` (lines 74-191): the decode/aggregate
   pipeline.

   One input line is either a bare sequence (`len(line.split()) == 1`,
   implied weight 1) or a weight followed by a sequence.  The regex
   decoding step `process_bc_seq_line` is abstracted as a function
   `decode : String → Option RKey` returning the six grouped key fields
   (`itam_bc_o, itam_umi_o, costim_bc_o, costim_umi_o, sl_o, sl_num`) of
   a matched line, or `none` for an unmatched line; the fuzzy pattern
   itself is embedded separately below.
   ================================================================ -/

inductive InLine where
  | seqOnly (s : String)
  | counted (w : ℤ) (s : String)
deriving DecidableEq

def InLine.weight : InLine → ℤ
  | .seqOnly _ => 1
  | .counted w _ => w

def InLine.seq : InLine → String
  | .seqOnly s => s
  | .counted _ s => s

def InLine.isSeqOnly : InLine → Bool
  | .seqOnly _ => true
  | .counted _ _ => false

/-- The six grouped columns `header[1:]` of itam_costim_bc_regex.py
line 155: `itam_bc_o, itam_umi_o, costim_bc_o, costim_umi_o, sl_o,
sl_num`. -/
abbrev RKey := String × String × String × String × String × ℤ

/-- One entry of `bc_table_list`: the key columns (all `None` for an
unmatched line, per lines 133-136) and the `count` column. -/
structure BcRow where
  key : Option RKey
  count : ℤ
deriving DecidableEq

/-- The `stats` defaultdict of itam_costim_bc_regex.py lines 99-169. -/
structure BcStats where
  total_lines : ℕ
  total_counts : ℤ
  skipped_lines : ℕ
  skipped_counts : ℤ
  matched_lines : ℕ
  matched_counts : ℤ
  unmatched_lines : ℕ
  unmatched_counts : ℤ
  merged_lines : ℕ
deriving DecidableEq

def initStats : BcStats :=
  ⟨0, 0, 0, 0, 0, 0, 0, 0, 0⟩

/-- The body of the `for line in bc_file` loop (lines 103-147), minus the
one-time-warning bookkeeping which is modelled separately below:
tally totals, skip lines with weight below `MIN_COUNT = 1`, decode the
rest and append a row (a null-keyed row for unmatched lines). -/
def processLine (decode : String → Option RKey)
    (st : List BcRow × BcStats) (li : InLine) : List BcRow × BcStats :=
  if li.weight < 1 then
    (st.1, { st.2 with total_lines := st.2.total_lines + 1,
                       total_counts := st.2.total_counts + li.weight,
                       skipped_lines := st.2.skipped_lines + 1,
                       skipped_counts := st.2.skipped_counts + li.weight })
  else
    match decode li.seq with
    | none =>
        (st.1 ++ [⟨none, li.weight⟩],
          { st.2 with total_lines := st.2.total_lines + 1,
                      total_counts := st.2.total_counts + li.weight,
                      unmatched_lines := st.2.unmatched_lines + 1,
                      unmatched_counts := st.2.unmatched_counts + li.weight })
    | some kk =>
        (st.1 ++ [⟨some kk, li.weight⟩],
          { st.2 with total_lines := st.2.total_lines + 1,
                      total_counts := st.2.total_counts + li.weight,
                      matched_lines := st.2.matched_lines + 1,
                      matched_counts := st.2.matched_counts + li.weight })

def processLines (decode : String → Option RKey) (lines : List InLine) :
    List BcRow × BcStats :=
  lines.foldl (processLine decode) ([], initStats)

/-- The rows that survive `df.groupby(header[1:])`: pandas drops every row
with a NaN group key (`dropna=True` default), so only rows whose six key
columns are all populated — rows with `key = some _` — take part. -/
def matchedPairs (rows : List BcRow) : List (RKey × ℤ) :=
  rows.filterMap (fun r => r.key.map (fun kk => (kk, r.count)))

/-- Fuelled group-and-sum: collapse all pairs sharing the head's key into
one row (summing their counts, as `.agg({'count': 'sum'})`), recurse on
the remainder.  The fuel is always at least the list length, so the
`0, l => l` branch is unreachable; it only makes the recursion
structural. -/
def aggFoldGo : ℕ → List (RKey × ℤ) → List (RKey × ℤ)
  | _, [] => []
  | 0, l => l
  | n + 1, (kk, c) :: rest =>
      (kk, c + ((rest.filter (fun p => p.1 = kk)).map Prod.snd).sum) ::
        aggFoldGo n (rest.filter (fun p => p.1 ≠ kk))

def aggFold (l : List (RKey × ℤ)) : List (RKey × ℤ) :=
  aggFoldGo l.length l

/-- Sort relation of `df.sort_values('count', ascending=False)`
(line 165). -/
def cntGe (a b : RKey × ℤ) : Prop := b.2 ≤ a.2

instance : DecidableRel cntGe := fun a b => inferInstanceAs (Decidable (b.2 ≤ a.2))

instance : IsTotal (RKey × ℤ) cntGe := ⟨fun a b => le_total b.2 a.2⟩

instance : IsTrans (RKey × ℤ) cntGe := ⟨fun _ _ _ hab hbc => le_trans hbc hab⟩

/-- Lines 162-165 with `KEEP_BC = False`: group by the six key columns
(dropping null-keyed rows), sum `count`, sort by `count` descending. -/
def aggregate (rows : List BcRow) : List (RKey × ℤ) :=
  List.insertionSort cntGe (aggFold (matchedPairs rows))

/-- `main(input_path)` of itam_costim_bc_regex.py from the parsed line
stream to the emitted table and stats.  If no line matched, the built
DataFrame lacks the `sl_o`/`sl_num` columns (they are only introduced by
matched rows; unmatched rows carry only the raw regex group names), so
`df.groupby(header[1:])` at line 163 raises `KeyError` and the run aborts
before `to_csv` writes anything — in particular on an empty input
stream, whose DataFrame has no columns at all. -/
def main_decoder (decode : String → Option RKey) (lines : List InLine) :
    Except String (List (RKey × ℤ) × BcStats) :=
  if (matchedPairs (processLines decode lines).1).isEmpty then
    Except.error ("KeyError: groupby key columns missing from the DataFrame")
  else
    Except.ok (aggregate (processLines decode lines).1,
      { (processLines decode lines).2 with
          merged_lines := (aggregate (processLines decode lines).1).length })

/- The one-time-warning state machine of lines 100-121: `no_counts` starts
as `None`, a bare-sequence line prints the warning when `no_counts != True`
and sets it to `True`, a counted line resets it to `False`. -/

def warnStep (st : Option Bool) (li : InLine) : Option Bool × ℕ :=
  match li with
  | .seqOnly _ => (some true, if st = some true then 0 else 1)
  | .counted _ _ => (some false, 0)

def countWarnings : Option Bool → List InLine → ℕ
  | _, [] => 0
  | st, li :: ls => (warnStep st li).2 + countWarnings (warnStep st li).1 ls

/- Specification-side count: number of maximal runs of consecutive
bare-sequence lines (`wlBlocks` outside a run, `wlRun` inside one). -/

mutual

def wlBlocks : List InLine → ℕ
  | [] => 0
  | .seqOnly _ :: ls => 1 + wlRun ls
  | .counted _ _ :: ls => wlBlocks ls

def wlRun : List InLine → ℕ
  | [] => 0
  | .seqOnly _ :: ls => wlRun ls
  | .counted _ _ :: ls => wlBlocks ls

end

/- ================================================================
   Decoder pipeline lemmas.
   ================================================================ -/

theorem sum_filter_split (p : RKey × ℤ → Bool) :
    ∀ l : List (RKey × ℤ),
      ((l.filter p).map Prod.snd).sum +
        ((l.filter (fun x => !(p x))).map Prod.snd).sum =
      (l.map Prod.snd).sum
  | [] => by simp
  | a :: l => by
      have ih := sum_filter_split p l
      cases hp : p a <;>
        simp [List.filter_cons, hp] <;> omega

theorem aggFoldGo_sum :
    ∀ (n : ℕ) (l : List (RKey × ℤ)), l.length ≤ n →
      ((aggFoldGo n l).map Prod.snd).sum = (l.map Prod.snd).sum
  | _, [], _ => by simp [aggFoldGo]
  | 0, _ :: _, h => by simp at h
  | n + 1, (kk, c) :: rest, h => by
      have hlen : (rest.filter (fun p => p.1 ≠ kk)).length ≤ n := by
        have := List.length_filter_le (fun p : RKey × ℤ => decide (p.1 ≠ kk)) rest
        simp only [List.length_cons] at h
        omega
      have ih := aggFoldGo_sum n (rest.filter (fun p => p.1 ≠ kk)) hlen
      have hsplit := sum_filter_split (fun p => decide (p.1 = kk)) rest
      simp only [aggFoldGo, List.map_cons, List.sum_cons, ih]
      have hfe : rest.filter (fun p => p.1 ≠ kk) =
          rest.filter (fun x => !(decide (x.1 = kk))) := by
        apply List.filter_congr
        intro x _
        simp
      rw [hfe]
      omega

theorem aggFold_sum (l : List (RKey × ℤ)) :
    ((aggFold l).map Prod.snd).sum = (l.map Prod.snd).sum :=
  aggFoldGo_sum l.length l le_rfl

theorem aggregate_sum (rows : List BcRow) :
    ((aggregate rows).map Prod.snd).sum = ((matchedPairs rows).map Prod.snd).sum := by
  unfold aggregate
  have hperm := (List.perm_insertionSort cntGe (aggFold (matchedPairs rows))).map Prod.snd
  rw [hperm.sum_eq, aggFold_sum]

theorem aggFoldGo_keys :
    ∀ (n : ℕ) (l : List (RKey × ℤ)) (p : RKey × ℤ), p ∈ aggFoldGo n l →
      ∃ q ∈ l, q.1 = p.1
  | _, [], p, hp => by simp [aggFoldGo] at hp
  | 0, a :: l, p, hp => ⟨p, hp, rfl⟩
  | n + 1, (kk, c) :: rest, p, hp => by
      rcases List.mem_cons.mp hp with rfl | hp'
      · exact ⟨(kk, c), by simp, rfl⟩
      · rcases aggFoldGo_keys n _ p hp' with ⟨q, hq, hqe⟩
        exact ⟨q, List.mem_cons_of_mem _ (List.mem_of_mem_filter hq), hqe⟩

theorem aggregate_keys {rows : List BcRow} {p : RKey × ℤ}
    (hp : p ∈ aggregate rows) : ∃ r ∈ rows, r.key = some p.1 := by
  have hp' : p ∈ aggFold (matchedPairs rows) :=
    (List.perm_insertionSort cntGe _).mem_iff.mp hp
  rcases aggFoldGo_keys _ _ p hp' with ⟨q, hq, hqe⟩
  rcases List.mem_filterMap.mp hq with ⟨r, hr, hrq⟩
  rcases hk : r.key with _ | kk
  · rw [hk] at hrq; simp at hrq
  · rw [hk] at hrq
    have hq2 : (kk, r.count) = q := by simpa using hrq
    refine ⟨r, hr, ?_⟩
    rw [hk, ← hqe, ← hq2]

theorem matchedPairs_cons_none {r : BcRow} (rest : List BcRow) (hk : r.key = none) :
    matchedPairs (r :: rest) = matchedPairs rest := by
  unfold matchedPairs
  rw [List.filterMap_cons]
  simp [hk]

theorem matchedPairs_cons_some {r : BcRow} (rest : List BcRow) {kk : RKey}
    (hk : r.key = some kk) :
    matchedPairs (r :: rest) = (kk, r.count) :: matchedPairs rest := by
  unfold matchedPairs
  rw [List.filterMap_cons]
  simp [hk]

theorem matchedPairs_append (l1 l2 : List BcRow) :
    matchedPairs (l1 ++ l2) = matchedPairs l1 ++ matchedPairs l2 := by
  unfold matchedPairs
  rw [List.filterMap_append]

theorem matchedPairs_filter (rows : List BcRow) :
    matchedPairs (rows.filter (fun r => r.key.isSome)) = matchedPairs rows := by
  induction rows with
  | nil => rfl
  | cons r rest ih =>
      rcases hk : r.key with _ | kk
      · rw [List.filter_cons, if_neg (by simp [hk]), ih, matchedPairs_cons_none rest hk]
      · rw [List.filter_cons, if_pos (by simp [hk]),
          matchedPairs_cons_some _ hk, matchedPairs_cons_some rest hk, ih]

/-- Invariant carried by the decode loop: the sum of the `count` column
over the matched rows equals `matched_counts`, and the counts tally
splits into matched + unmatched + skipped. -/
def StInv (st : List BcRow × BcStats) : Prop :=
  ((matchedPairs st.1).map Prod.snd).sum = st.2.matched_counts ∧
  st.2.total_counts =
    st.2.matched_counts + st.2.unmatched_counts + st.2.skipped_counts

theorem processLine_inv (decode : String → Option RKey)
    (st : List BcRow × BcStats) (li : InLine) (h : StInv st) :
    StInv (processLine decode st li) := by
  obtain ⟨h1, h2⟩ := h
  unfold processLine
  by_cases hw : li.weight < 1
  · rw [if_pos hw]
    exact ⟨h1, by simp only; omega⟩
  · rw [if_neg hw]
    rcases hd : decode li.seq with _ | kk
    · refine ⟨?_, by simp only; omega⟩
      rw [matchedPairs_append]
      rw [matchedPairs_cons_none [] rfl]
      simpa [matchedPairs] using h1
    · refine ⟨?_, by simp only; omega⟩
      rw [matchedPairs_append]
      rw [matchedPairs_cons_some [] rfl]
      simp only [List.map_append, List.sum_append]
      rw [h1]
      simp [matchedPairs]

theorem foldl_inv (decode : String → Option RKey) :
    ∀ (lines : List InLine) (st : List BcRow × BcStats), StInv st →
      StInv (List.foldl (processLine decode) st lines)
  | [], st, h => h
  | li :: ls, st, h =>
      foldl_inv decode ls (processLine decode st li) (processLine_inv decode st li h)

theorem processLines_inv (decode : String → Option RKey) (lines : List InLine) :
    StInv (processLines decode lines) :=
  foldl_inv decode lines ([], initStats) ⟨rfl, rfl⟩

/-- Row provenance: after processing, each appended row's key (when
populated) came from decoding some input line. -/
theorem processLine_rows (decode : String → Option RKey)
    (st : List BcRow × BcStats) (li : InLine) :
    (processLine decode st li).1 = st.1 ∨
      ∃ nr : BcRow, (processLine decode st li).1 = st.1 ++ [nr] ∧
        ∀ kk, nr.key = some kk → decode li.seq = some kk := by
  unfold processLine
  by_cases hw : li.weight < 1
  · rw [if_pos hw]
    exact Or.inl rfl
  · rw [if_neg hw]
    rcases hd : decode li.seq with _ | kk
    · refine Or.inr ⟨⟨none, li.weight⟩, rfl, ?_⟩
      intro kk hkk
      simp at hkk
    · refine Or.inr ⟨⟨some kk, li.weight⟩, rfl, ?_⟩
      intro kk2 hkk
      simp only at hkk
      exact hkk

theorem foldl_prov (decode : String → Option RKey) :
    ∀ (lines : List InLine) (st : List BcRow × BcStats) (r : BcRow) (kk : RKey),
      r ∈ (List.foldl (processLine decode) st lines).1 → r.key = some kk →
      (∃ r' ∈ st.1, r'.key = some kk) ∨ ∃ li ∈ lines, decode li.seq = some kk
  | [], st, r, kk, hr, hk => Or.inl ⟨r, hr, hk⟩
  | li :: ls, st, r, kk, hr, hk => by
      rcases foldl_prov decode ls (processLine decode st li) r kk hr hk with h | h
      · rcases h with ⟨r', hr', hk'⟩
        rcases processLine_rows decode st li with he | ⟨nr, he, hnr⟩
        · rw [he] at hr'
          exact Or.inl ⟨r', hr', hk'⟩
        · rw [he] at hr'
          rcases List.mem_append.mp hr' with hmem | hmem
          · exact Or.inl ⟨r', hmem, hk'⟩
          · have : r' = nr := by simpa using hmem
            subst this
            exact Or.inr ⟨li, by simp, hnr kk hk'⟩
      · rcases h with ⟨li', hli', hd⟩
        exact Or.inr ⟨li', List.mem_cons_of_mem _ hli', hd⟩

theorem wlRun_allseq :
    ∀ ls : List InLine, (∀ li ∈ ls, li.isSeqOnly = true) → wlRun ls = 0
  | [], _ => rfl
  | .seqOnly _ :: ls, h =>
      by simpa [wlRun] using wlRun_allseq ls (fun li hli => h li (by simp [hli]))
  | .counted w s :: ls, h => by
      have := h (InLine.counted w s) (List.mem_cons_self _ _)
      simp [InLine.isSeqOnly] at this

theorem countWarnings_char (lines : List InLine) :
    countWarnings none lines = wlBlocks lines ∧
    countWarnings (some false) lines = wlBlocks lines ∧
    countWarnings (some true) lines = wlRun lines := by
  induction lines with
  | nil => simp [countWarnings, wlBlocks, wlRun]
  | cons li ls ih =>
      cases li with
      | seqOnly s =>
          refine ⟨?_, ?_, ?_⟩ <;>
            simp [countWarnings, warnStep, wlBlocks, wlRun, ih.2.2]
      | counted w s =>
          refine ⟨?_, ?_, ?_⟩ <;>
            simp [countWarnings, warnStep, wlBlocks, wlRun, ih.2.1]

/- ================================================================
   Claim theorems for the decoder/aggregator pipeline.
   ================================================================ -/

/-- C1 (amended): on every successful run, the sum of `count` over the
Aggregator's output table equals `matched_counts` — that is,
`total_counts − skipped_counts − unmatched_counts` — because pandas
`groupby` drops the null-keyed rows of unmatched lines; it equals
`total_counts − skipped_counts` exactly when no counts were unmatched. -/
theorem aggregator_conservation (decode : String → Option RKey)
    (lines : List InLine) (out : List (RKey × ℤ)) (stats : BcStats)
    (h : main_decoder decode lines = Except.ok (out, stats)) :
    (out.map Prod.snd).sum = stats.matched_counts ∧
    stats.matched_counts =
      stats.total_counts - stats.skipped_counts - stats.unmatched_counts ∧
    (stats.unmatched_counts = 0 →
      (out.map Prod.snd).sum = stats.total_counts - stats.skipped_counts) := by
  have hinv := processLines_inv decode lines
  unfold main_decoder at h
  split at h
  · exact absurd h (by simp)
  · rw [Except.ok.injEq, Prod.mk.injEq] at h
    obtain ⟨hout, hstats⟩ := h
    obtain ⟨h1, h2⟩ := hinv
    have hm : stats.matched_counts = (processLines decode lines).2.matched_counts := by
      rw [← hstats]
    have ht : stats.total_counts = (processLines decode lines).2.total_counts := by
      rw [← hstats]
    have hs : stats.skipped_counts = (processLines decode lines).2.skipped_counts := by
      rw [← hstats]
    have hu : stats.unmatched_counts = (processLines decode lines).2.unmatched_counts := by
      rw [← hstats]
    have hsum : (out.map Prod.snd).sum = stats.matched_counts := by
      rw [← hout, aggregate_sum, h1, hm]
    refine ⟨hsum, by omega, fun h0 => by omega⟩

/-- Concrete decode function and input stream for the C1 counterexample:
one matched line of weight 2 and one unmatched line of weight 3. -/
def kEx : RKey := ("GGCTCTGGG", "TCAGGATCAGGATCA", "AAAAAAAAA", "TTTTTTTTTTTTTTT", "CGTGACGTCGGGAGT", 60)

def dEx : String → Option RKey :=
  fun s => if s = ("a") then some kEx else none

def linesEx : List InLine := [InLine.counted 2 ("a"), InLine.counted 3 ("b")]

def outEx : List (RKey × ℤ) := [(kEx, 2)]

def statsEx : BcStats :=
  { total_lines := 2, total_counts := 5, skipped_lines := 0, skipped_counts := 0,
    matched_lines := 1, matched_counts := 2, unmatched_lines := 1,
    unmatched_counts := 3, merged_lines := 1 }

/-- C1 counterexample: on the stream above the run succeeds, no
minimum-count filtering applies (`skipped_counts = 0`), yet the sum of
`count` over the emitted table is 2 while `total_counts − skipped_counts`
is 5: the unmatched line's count is tallied in the stats but its
null-keyed row is dropped by the grouping, refuting the claimed
conservation. -/
theorem aggregator_conservation_cex :
    main_decoder dEx linesEx = Except.ok (outEx, statsEx) ∧
    statsEx.skipped_counts = 0 ∧
    ¬ (outEx.map Prod.snd).sum = statsEx.total_counts - statsEx.skipped_counts :=
  ⟨rfl, rfl, by decide⟩

theorem aggregator_conservation_witness :
    (outEx.map Prod.snd).sum = statsEx.matched_counts ∧
    statsEx.matched_counts =
      statsEx.total_counts - statsEx.skipped_counts - statsEx.unmatched_counts ∧
    (statsEx.unmatched_counts = 0 →
      (outEx.map Prod.snd).sum = statsEx.total_counts - statsEx.skipped_counts) :=
  aggregator_conservation dEx linesEx outEx statsEx rfl

/-- C9: with retention mode off, every row of the emitted table carries a
fully populated six-column key that came from some input line the decoder
matched; null-keyed (unmatched) rows never contribute an output row, since
grouping is insensitive to their presence, even though their counts are
tallied in the stats. -/
theorem aggregator_drops_null_keys (decode : String → Option RKey)
    (lines : List InLine) (out : List (RKey × ℤ)) (stats : BcStats)
    (h : main_decoder decode lines = Except.ok (out, stats)) :
    (∀ p ∈ out, ∃ li ∈ lines, decode li.seq = some p.1) ∧
    ∀ rows : List BcRow,
      aggregate rows = aggregate (rows.filter (fun r => r.key.isSome)) := by
  constructor
  · intro p hp
    have hout : out = aggregate (processLines decode lines).1 := by
      unfold main_decoder at h
      split at h
      · exact absurd h (by simp)
      · rw [Except.ok.injEq, Prod.mk.injEq] at h
        exact h.1.symm
    rw [hout] at hp
    rcases aggregate_keys hp with ⟨r, hr, hk⟩
    rcases foldl_prov decode lines ([], initStats) r p.1 hr hk with hemp | hfound
    · rcases hemp with ⟨r', hr', _⟩
      simp at hr'
    · exact hfound
  · intro rows
    unfold aggregate
    rw [matchedPairs_filter]

def linesEx9 : List InLine := [InLine.counted 1 ("a")]

def statsEx9 : BcStats :=
  { total_lines := 1, total_counts := 1, skipped_lines := 0, skipped_counts := 0,
    matched_lines := 1, matched_counts := 1, unmatched_lines := 0,
    unmatched_counts := 0, merged_lines := 1 }

theorem aggregator_drops_null_keys_witness :
    (∀ p ∈ [(kEx, (1 : ℤ))], ∃ li ∈ linesEx9, dEx li.seq = some p.1) ∧
    ∀ rows : List BcRow,
      aggregate rows = aggregate (rows.filter (fun r => r.key.isSome)) :=
  aggregator_drops_null_keys dEx linesEx9 [(kEx, 1)] statsEx9 rfl

/-- C10: on an input stream with zero lines the decoder run aborts with an
error before writing any output (the DataFrame built from no rows has no
columns, so the groupby/column selection raises `KeyError`), rather than
emitting an empty table and a stats report. -/
theorem empty_input_aborts (decode : String → Option RKey) :
    main_decoder decode [] =
      Except.error ("KeyError: groupby key columns missing from the DataFrame") := rfl

theorem empty_input_aborts_witness :
    main_decoder (fun _ => none) [] =
      Except.error ("KeyError: groupby key columns missing from the DataFrame") :=
  empty_input_aborts (fun _ => none)

/-- C8 (amended): the implied-weight-1 warning prints once per maximal run
of consecutive weight-less lines — so exactly once when the weight-less
lines are contiguous, and in particular exactly once on a non-empty
all-weight-less stream — but a stream interleaving weight-less and
weighted lines warns once per run, not at most once overall. -/
theorem weightless_warning_once_per_block (lines : List InLine) :
    countWarnings none lines = wlBlocks lines ∧
    ((∀ li ∈ lines, li.isSeqOnly = true) → lines ≠ [] →
      countWarnings none lines = 1) := by
  refine ⟨(countWarnings_char lines).1, ?_⟩
  intro hall hne
  rw [(countWarnings_char lines).1]
  cases lines with
  | nil => exact absurd rfl hne
  | cons li ls =>
      cases li with
      | seqOnly s =>
          have : wlRun ls = 0 :=
            wlRun_allseq ls (fun li2 hli2 => hall li2 (List.mem_cons_of_mem _ hli2))
          simp [wlBlocks, this]
      | counted w s =>
          have := hall (InLine.counted w s) (List.mem_cons_self _ _)
          simp [InLine.isSeqOnly] at this

def cexLines : List InLine :=
  [InLine.seqOnly ("ACGTACGT"), InLine.counted 1 ("ACGTACGT"),
    InLine.seqOnly ("ACGTACGT")]

/-- C8 counterexample: a stream interleaving weight-less lines with a
weighted line contains a weight-less line yet produces two warnings — the
`no_counts` flag is reset to `False` by the weighted line, so the next
weight-less line warns again, refuting "at most once over the whole
run". -/
theorem weightless_warning_once_cex :
    (∃ li ∈ cexLines, li.isSeqOnly = true) ∧
    ¬ countWarnings none cexLines ≤ 1 := by
  constructor
  · exact ⟨InLine.seqOnly ("ACGTACGT"), by simp [cexLines], rfl⟩
  · decide

def allSeqLines : List InLine := [InLine.seqOnly ("G"), InLine.seqOnly ("T")]

theorem weightless_warning_once_per_block_witness :
    countWarnings none allSeqLines = 1 :=
  (weightless_warning_once_per_block allSeqLines).2 (by decide) (by decide)

/- ================================================================
   itam_costim_bc_regex.py, `compile_bc_regex` (lines 23-45) and
   `process_bc_seq_line` (lines 48-72): the fuzzy pattern.

   The compiled pattern is, in order: literal anchor "ACCCAGGTCCT",
   shaped field "GG.TC.GG." (group itam_bc_o), shaped field
   "TC.GG.TC.GG.TC." (group itam_umi_o), literal junction "GGGCCT",
   class field [ATGCN]{9} (group costim_bc_o), a six-way alternation of
   sublibrary literals (groups sublibrary_90 .. sublibrary_63), class
   field [ATGCN]{15} (group costim_umi_o), literal anchor
   "TCGGCTGCTTTA" — the whole group matched with the global fuzzy budget
   {e<=8} and anchored at the start of the line (regex `.match`), with
   arbitrary unconsumed text allowed afterwards.

   A fuzzy match within budget n is embedded as a decomposition of the
   input into consecutive consumed segments, one per pattern component,
   with an edit script (`Ed`) per component whose costs sum to n; each
   named group captures its consumed segment and exactly one alternation
   branch participates in the match.

   The relation collects every accepting decomposition, whereas
   `regex.match` deterministically returns the captures of exactly one
   of them, chosen by the library's first-match backtracking search
   (greedy fixed-count consumption with errors repaired at the failure
   point).  The relation therefore over-approximates the decoder: a
   property proved for all accepting decompositions holds for the
   captures the decoder returns, but a property failing for some
   decomposition is not thereby shown to fail for the decoder's one.
   ================================================================ -/

inductive CharClass where
  | lit (c : Char)
  | dot
  | dna
deriving DecidableEq

def CharClass.matchesC : CharClass → Char → Bool
  | .lit c, a => a = c
  | .dot, _ => true
  | .dna, a => a = 'A' || a = 'T' || a = 'G' || a = 'C' || a = 'N'

/-- `Ed p s k`: pattern `p` matches consumed text `s` under some edit
script with exactly `k` error operations (substitution of a character,
deletion of a pattern position, insertion of a text character). -/
inductive Ed : List CharClass → List Char → ℕ → Prop where
  | nil : Ed [] [] 0
  | same {c p a s k} : c.matchesC a = true → Ed p s k → Ed (c :: p) (a :: s) k
  | sub {c p a s k} : Ed p s k → Ed (c :: p) (a :: s) (k + 1)
  | del {c p s k} : Ed p s k → Ed (c :: p) s (k + 1)
  | ins {p a s k} : Ed p s k → Ed p (a :: s) (k + 1)

def litPat (s : String) : List CharClass := s.toList.map CharClass.lit

def shapePat (s : String) : List CharClass :=
  s.toList.map (fun c => if c = '.' then CharClass.dot else CharClass.lit c)

def pre_str : List CharClass := litPat ("ACCCAGGTCCT")

def itam_bc : List CharClass := shapePat ("GG.TC.GG.")

def itam_umi : List CharClass := shapePat ("TC.GG.TC.GG.TC.")

def jct_str : List CharClass := litPat ("GGGCCT")

def post_str : List CharClass := litPat ("TCGGCTGCTTTA")

def costim_bc : List CharClass := List.replicate 9 CharClass.dna

def costim_umi : List CharClass := List.replicate 15 CharClass.dna

/-- `SL_SEQS` (line 14): the six (id, literal) sublibrary alternatives in
source order. -/
def SL_SEQS : List (ℕ × String) :=
  [(90, "GGTTCT"), (30, "GCGCCACTGCACCTA"), (31, "TTGGCTGGGAGAGCG"),
    (34, "CCACGGCCTGGAACA"), (60, "CGTGACGTCGGGAGT"), (63, "GGCGGAAGTCCTCGT")]

def slLit (j : Fin 6) : List CharClass := litPat (SL_SEQS.get ⟨j.1, j.2⟩).2

def slId (j : Fin 6) : ℕ := (SL_SEQS.get ⟨j.1, j.2⟩).1

def MAX_MATCH_DIST : ℕ := 8

/-- The named captures of one match: the four field groups and the six
alternation branch groups (`sublibrary_90 .. sublibrary_63`, indexed in
source order), of which the non-participating branches are `none`. -/
structure BcCaps where
  itam_bc_o : List Char
  itam_umi_o : List Char
  costim_bc_o : List Char
  costim_umi_o : List Char
  subs : Fin 6 → Option (List Char)

/-- `MatchCost s caps n`: some accepting decomposition of a prefix of `s`
against the compiled pattern has total edit cost exactly `n` and capture
assignment `caps`.  The engine returns the captures of one
engine-determined accepting decomposition; `MatchCost` holds of them and
of every other accepting decomposition alike. -/
def MatchCost (s : List Char) (caps : BcCaps) (n : ℕ) : Prop :=
  ∃ (tp tib tiu tj tcb : List Char) (j : Fin 6) (tsl tcu tpo rest : List Char)
    (k1 k2 k3 k4 k5 k6 k7 k8 : ℕ),
    s = tp ++ (tib ++ (tiu ++ (tj ++ (tcb ++ (tsl ++ (tcu ++ (tpo ++ rest))))))) ∧
    Ed pre_str tp k1 ∧ Ed itam_bc tib k2 ∧ Ed itam_umi tiu k3 ∧
    Ed jct_str tj k4 ∧ Ed costim_bc tcb k5 ∧ Ed (slLit j) tsl k6 ∧
    Ed costim_umi tcu k7 ∧ Ed post_str tpo k8 ∧
    n = k1 + k2 + k3 + k4 + k5 + k6 + k7 + k8 ∧
    caps.itam_bc_o = tib ∧ caps.itam_umi_o = tiu ∧
    caps.costim_bc_o = tcb ∧ caps.costim_umi_o = tcu ∧
    caps.subs = fun i => if i = j then some tsl else none

/-- Acceptance within the global fuzzy budget `{e<=8}`. -/
def MatchBc (s : List Char) (caps : BcCaps) : Prop :=
  ∃ n, n ≤ MAX_MATCH_DIST ∧ MatchCost s caps n

/-- A zero-cost edit script forces exact consumption: the consumed text
has exactly the pattern's length. -/
theorem Ed_len_of_zero : ∀ {p : List CharClass} {s : List Char} {k : ℕ},
    Ed p s k → k = 0 → s.length = p.length := by
  intro p s k h
  induction h with
  | nil => intro _; rfl
  | same hm _ ih => intro hk; simp [ih hk]
  | sub _ ih => intro hk; omega
  | del _ ih => intro hk; omega
  | ins _ ih => intro hk; omega

/-- Pointwise class acceptance (equal lengths, every position accepted). -/
def matchesL : List CharClass → List Char → Bool
  | [], [] => true
  | c :: p, a :: s => c.matchesC a && matchesL p s
  | _, _ => false

theorem Ed_of_matchesL : ∀ {p : List CharClass} {s : List Char},
    matchesL p s = true → Ed p s 0
  | [], [], _ => Ed.nil
  | [], _ :: _, h => by simp [matchesL] at h
  | _ :: _, [], h => by simp [matchesL] at h
  | c :: p, a :: s, h => by
      rw [matchesL, Bool.and_eq_true] at h
      exact Ed.same h.1 (Ed_of_matchesL h.2)

/- Concrete inputs: `perfectSeq` is a sequence matching every component
exactly (sublibrary branch 4, literal "CGTGACGTCGGGAGT", id 60);
`shortSeq` is the same sequence with one character deleted inside the
costim_umi field.  `shortSeq` is accepted at edit cost 1 by two distinct
decompositions: one deletes a pattern position inside the costim_umi
field (capturing 14 characters, `caps0`), the other consumes the post
anchor's leading character into costim_umi and deletes the anchor's
first pattern position instead (capturing 15 characters, `caps1`). -/

def perfectSeq : List Char :=
  (("ACCCAGGTCCT") ++ ("GGATCAGGA") ++ ("TCAGGATCAGGATCA") ++ ("GGGCCT") ++
    ("AAAAAAAAA") ++ ("CGTGACGTCGGGAGT") ++ ("TTTTTTTTTTTTTTT") ++
    ("TCGGCTGCTTTA")).toList

def caps1 : BcCaps where
  itam_bc_o := ("GGATCAGGA").toList
  itam_umi_o := ("TCAGGATCAGGATCA").toList
  costim_bc_o := ("AAAAAAAAA").toList
  costim_umi_o := ("TTTTTTTTTTTTTTT").toList
  subs := fun i => if i = (4 : Fin 6) then some (("CGTGACGTCGGGAGT").toList) else none

def shortSeq : List Char :=
  (("ACCCAGGTCCT") ++ ("GGATCAGGA") ++ ("TCAGGATCAGGATCA") ++ ("GGGCCT") ++
    ("AAAAAAAAA") ++ ("CGTGACGTCGGGAGT") ++ ("TTTTTTTTTTTTTT") ++
    ("TCGGCTGCTTTA")).toList

def caps0 : BcCaps where
  itam_bc_o := ("GGATCAGGA").toList
  itam_umi_o := ("TCAGGATCAGGATCA").toList
  costim_bc_o := ("AAAAAAAAA").toList
  costim_umi_o := ("TTTTTTTTTTTTTT").toList
  subs := fun i => if i = (4 : Fin 6) then some (("CGTGACGTCGGGAGT").toList) else none

theorem matchCost_perfect : MatchCost perfectSeq caps1 0 := by
  refine ⟨("ACCCAGGTCCT").toList, ("GGATCAGGA").toList, ("TCAGGATCAGGATCA").toList,
    ("GGGCCT").toList, ("AAAAAAAAA").toList, (4 : Fin 6), ("CGTGACGTCGGGAGT").toList,
    ("TTTTTTTTTTTTTTT").toList, ("TCGGCTGCTTTA").toList, [],
    0, 0, 0, 0, 0, 0, 0, 0, ?_, ?_, ?_, ?_, ?_, ?_, ?_, ?_, ?_, rfl, rfl, rfl, rfl, rfl, rfl⟩
  · decide
  · exact Ed_of_matchesL (by decide)
  · exact Ed_of_matchesL (by decide)
  · exact Ed_of_matchesL (by decide)
  · exact Ed_of_matchesL (by decide)
  · exact Ed_of_matchesL (by decide)
  · exact Ed_of_matchesL (by decide)
  · exact Ed_of_matchesL (by decide)
  · exact Ed_of_matchesL (by decide)

theorem matchCost_short : MatchCost shortSeq caps0 1 := by
  refine ⟨("ACCCAGGTCCT").toList, ("GGATCAGGA").toList, ("TCAGGATCAGGATCA").toList,
    ("GGGCCT").toList, ("AAAAAAAAA").toList, (4 : Fin 6), ("CGTGACGTCGGGAGT").toList,
    ("TTTTTTTTTTTTTT").toList, ("TCGGCTGCTTTA").toList, [],
    0, 0, 0, 0, 0, 0, 1, 0, ?_, ?_, ?_, ?_, ?_, ?_, ?_, ?_, ?_, rfl, rfl, rfl, rfl, rfl, rfl⟩
  · decide
  · exact Ed_of_matchesL (by decide)
  · exact Ed_of_matchesL (by decide)
  · exact Ed_of_matchesL (by decide)
  · exact Ed_of_matchesL (by decide)
  · exact Ed_of_matchesL (by decide)
  · exact Ed_of_matchesL (by decide)
  · show Ed costim_umi (("TTTTTTTTTTTTTT").toList) 1
    have h0 : Ed (List.replicate 14 CharClass.dna) (("TTTTTTTTTTTTTT").toList) 0 :=
      Ed_of_matchesL (by decide)
    exact Ed.del h0
  · exact Ed_of_matchesL (by decide)

/-- Properties of every accepting decomposition, hence in particular of
the captures the decoder returns: exactly one of the six sublibrary
alternation branches is non-null, and a zero-edit (exact) accepting
decomposition captures fields of lengths exactly 9, 15, 9, 15. -/
theorem matchBc_exactly_one_sublibrary (s : List Char) (caps : BcCaps)
    (h : MatchBc s caps) :
    (∃! i : Fin 6, (caps.subs i).isSome = true) ∧
    (MatchCost s caps 0 →
      caps.itam_bc_o.length = 9 ∧ caps.itam_umi_o.length = 15 ∧
      caps.costim_bc_o.length = 9 ∧ caps.costim_umi_o.length = 15) := by
  constructor
  · rcases h with ⟨n, _, tp, tib, tiu, tj, tcb, j, tsl, tcu, tpo, rest,
      k1, k2, k3, k4, k5, k6, k7, k8, hs, e1, e2, e3, e4, e5, e6, e7, e8,
      hsum, c1, c2, c3, c4, c5⟩
    refine ⟨j, ?_, ?_⟩
    · rw [c5]; simp
    · intro i hi
      rw [c5] at hi
      by_cases hij : i = j
      · exact hij
      · simp [hij] at hi
  · rintro ⟨tp, tib, tiu, tj, tcb, j, tsl, tcu, tpo, rest,
      k1, k2, k3, k4, k5, k6, k7, k8, hs, e1, e2, e3, e4, e5, e6, e7, e8,
      hsum, c1, c2, c3, c4, c5⟩
    have hz2 : k2 = 0 := by omega
    have hz3 : k3 = 0 := by omega
    have hz5 : k5 = 0 := by omega
    have hz7 : k7 = 0 := by omega
    refine ⟨?_, ?_, ?_, ?_⟩
    · rw [c1, Ed_len_of_zero e2 hz2]; decide
    · rw [c2, Ed_len_of_zero e3 hz3]; decide
    · rw [c3, Ed_len_of_zero e5 hz5]; decide
    · rw [c4, Ed_len_of_zero e7 hz7]; decide

/-- The pattern accepts `perfectSeq` exactly, with the canonical
captures. -/
theorem matchBc_perfect : MatchBc perfectSeq caps1 :=
  ⟨0, by decide, matchCost_perfect⟩

/-- The second cost-1 decomposition of `shortSeq`: the costim_umi field
consumes the post anchor's leading character (15 characters, all in
class, zero cost there) and the post anchor matches the remaining text
with one deleted pattern position. -/
theorem matchCost_short15 : MatchCost shortSeq caps1 1 := by
  refine ⟨("ACCCAGGTCCT").toList, ("GGATCAGGA").toList, ("TCAGGATCAGGATCA").toList,
    ("GGGCCT").toList, ("AAAAAAAAA").toList, (4 : Fin 6), ("CGTGACGTCGGGAGT").toList,
    ("TTTTTTTTTTTTTTT").toList, ("CGGCTGCTTTA").toList, [],
    0, 0, 0, 0, 0, 0, 0, 1, ?_, ?_, ?_, ?_, ?_, ?_, ?_, ?_, ?_, rfl, rfl, rfl, rfl, rfl, rfl⟩
  · decide
  · exact Ed_of_matchesL (by decide)
  · exact Ed_of_matchesL (by decide)
  · exact Ed_of_matchesL (by decide)
  · exact Ed_of_matchesL (by decide)
  · exact Ed_of_matchesL (by decide)
  · exact Ed_of_matchesL (by decide)
  · exact Ed_of_matchesL (by decide)
  · show Ed post_str (("CGGCTGCTTTA").toList) 1
    have hpost : post_str = CharClass.lit 'T' :: litPat ("CGGCTGCTTTA") := by decide
    rw [hpost]
    exact Ed.del (Ed_of_matchesL (by decide))

/-- The accept relation does not determine the captured lengths of a
fuzzy (nonzero-edit) match: the same input `shortSeq` admits two
accepting decompositions within the budget whose `costim_umi_o` captures
have lengths 14 and 15.  Which one `regex.match` returns is fixed by the
library's search order, not by anything in this repository. -/
theorem matchBc_capture_length_underdetermined :
    MatchBc shortSeq caps0 ∧ MatchBc shortSeq caps1 ∧
    caps0.costim_umi_o.length = 14 ∧ caps1.costim_umi_o.length = 15 :=
  ⟨⟨1, by decide, matchCost_short⟩, ⟨1, by decide, matchCost_short15⟩,
    by decide, by decide⟩

end BcTools
